import Mathlib

set_option maxHeartbeats 1000000
set_option maxRecDepth 8000

/-!
Shallow embedding of the nadeko archive-table synchronization engine
(`src/nadeko.c` and the full iteration in `src/unnamed/part_001`, the
virtual table whose module methods are `nadekoConnect`, `nadekoNext`,
`nadekoFilter`, `nadekoEof`, `nadekoBegin`, `nadekoCommit`,
`nadekoRollback`, `nadekoUpdate`, `nadekoShadowName`).

C strings are modelled as lists of characters, byte buffers as lists of
naturals, SQLite 64-bit row counters as `Int` (they only ever grow by one
from zero, so overflow is unreachable), and the libarchive handle as an
explicit stream value.  Result codes are modelled as `Bool`
(`true` = `SQLITE_OK`, `false` = a nonzero SQLite error code).
-/

namespace Nadeko

/-- Byte content of a string literal: the list of its character codes. -/
def bytesOf (s : String) : List Nat := s.data.map Char.toNat

/-- File and path names; C strings never contain a NUL byte. -/
abbrev Name := List Char

/-- The `/` character used by the disk walk and the stripping code. -/
def slashChar : Char := Char.ofNat 47

/-- The `"` character accepted by `nadekoUnquote`. -/
def dquoteChar : Char := Char.ofNat 34

/-- The `'` character accepted by `nadekoUnquote`. -/
def squoteChar : Char := Char.ofNat 39

/-- One source entry as the codec presents it to `nadekoNext`:
`path` is `archive_entry_pathname`, `size` is `archive_entry_size`,
`chunks` are the successive non-empty buffers returned by
`archive_read_data` in `nadekoFillBlobFromArchive`, and `ioerr` records
whether the read that follows the last chunk returns `-1` (a mid-copy
I/O error) instead of `0` (end of entry data). -/
structure Entry where
  path : Name
  size : Nat
  chunks : List (List Nat)
  ioerr : Bool
deriving Repr, DecidableEq

/-- One row of the backing `<table>_store` table. -/
structure Row where
  rowid : Int
  filename : Name
  contents : List Nat
deriving Repr, DecidableEq

/-- The backing row store (`CREATE TABLE <t>_store (filename TEXT PRIMARY KEY, contents BLOB)`). -/
abbrev Store := List Row

/-- `SELECT filename, contents FROM store WHERE rowid == ?`. -/
def storeGet (s : Store) (rid : Int) : Option Row :=
  s.find? (fun r => r.rowid == rid)

/-- `INSERT OR REPLACE INTO store (rowid, filename, contents) VALUES (?, ?, ?)`:
SQLite deletes every row that conflicts on the rowid or on the
`filename` primary key, then inserts the new row. -/
def storeInsertOrReplace (s : Store) (rid : Int) (nm : Name) (c : List Nat) : Store :=
  ⟨rid, nm, c⟩ :: s.filter (fun r => r.rowid != rid && r.filename != nm)

/-- Overwriting the `contents` blob of the row keyed by `rid`
(the incremental-blob handle opened by `sqlite3_blob_open`). -/
def storeSetContents (s : Store) (rid : Int) (c : List Nat) : Store :=
  s.map (fun r => if r.rowid == rid then { r with contents := c } else r)

/-- `DELETE FROM store WHERE rowid = ?`. -/
def storeDelete (s : Store) (rid : Int) : Store :=
  s.filter (fun r => r.rowid != rid)

/-- `sqlite3_blob_write(blob, chunk, len, offset)`: fails (returns a
nonzero code) when the write would run past the end of the blob,
otherwise overwrites `chunk.length` bytes starting at `off`. -/
def blobWrite (payload chunk : List Nat) (off : Nat) : Option (List Nat) :=
  if off + chunk.length ≤ payload.length then
    some (payload.take off ++ chunk ++ payload.drop (off + chunk.length))
  else none

/-- The read/write loop of `nadekoFillBlobFromArchive`: stream each chunk
returned by `archive_read_data` into the blob at the running offset.
Returns the blob bytes as mutated so far together with the result code
(`false` as soon as a blob write fails, or when the final read reports
an I/O error; `true` when the final read returns 0). -/
def fillLoop (payload : List Nat) (off : Nat) : List (List Nat) → Bool → List Nat × Bool
  | [], ioerr => (payload, !ioerr)
  | chunk :: rest, ioerr =>
    match blobWrite payload chunk off with
    | some p => fillLoop p (off + chunk.length) rest ioerr
    | none => (payload, false)

/-- `nadekoFillBlobFromArchive`: open the blob of the row keyed by `rid`
(failing when no such row exists), then run the chunk-copy loop and
store the mutated bytes back. -/
def nadekoFillBlobFromArchive (s : Store) (rid : Int) (e : Entry) : Store × Bool :=
  match storeGet s rid with
  | none => (s, false)
  | some row =>
    let r := fillLoop row.contents 0 e.chunks e.ioerr
    (storeSetContents s rid r.1, r.2)

/-- A node of the filesystem tree walked by `archive_read_disk`. -/
inductive FsEntry where
  | file (nm : Name) (data : List Nat)
  | dir (nm : Name) (children : List FsEntry)
deriving Repr

/-- The last path component of a node. -/
def FsEntry.fsName : FsEntry → Name
  | .file n _ => n
  | .dir n _ => n

/-- Path concatenation as the disk walk performs it: append a `/` only
when the parent path does not already end in one. -/
def joinPath (p n : Name) : Name :=
  if p.getLast? = some slashChar then p ++ n else p ++ slashChar :: n

mutual
/-- Number of nodes of a tree (used as fuel for the walk loop). -/
def fsWeight : FsEntry → Nat
  | .file _ _ => 1
  | .dir _ cs => 1 + fsListWeight cs
/-- Number of nodes of a forest. -/
def fsListWeight : List FsEntry → Nat
  | [] => 0
  | c :: cs => fsWeight c + fsListWeight cs
end

mutual
/-- The regular files below a node, in depth-first walk order, each with
its full path. -/
def fsFiles : Name → FsEntry → List (Name × List Nat)
  | p, .file _ d => [(p, d)]
  | p, .dir _ cs => fsListFiles p cs
/-- The regular files below each node of a forest, in order. -/
def fsListFiles : Name → List FsEntry → List (Name × List Nat)
  | _, [] => []
  | p, c :: cs => fsFiles (joinPath p c.fsName) c ++ fsListFiles p cs
end

/-- The libarchive handle seen by `nadekoNextHeader`: either a real
archive (`archive_format` nonzero; a stream of headers where `none`
stands for a header-read failure) or a disk walk (`archive_format`
zero; a stack of pending nodes, children pushed by
`archive_read_disk_descend`). -/
inductive Source where
  | archive (items : List (Option Entry))
  | disk (stack : List (Name × FsEntry))
deriving Repr

/-- Result of `nadekoArchiveNextHeader`. -/
inductive HeaderResult where
  | ok (e : Entry) (next : Source)
  | eof
  | err (next : Source)
deriving Repr

/-- `NADEKO_BUFFER_SIZE`, the chunk size of every streaming copy. -/
def bufSize : Nat := 65536

/-- The successive buffers `archive_read_data` hands back for a disk
file of the given bytes: maximal chunks of `bufSize` bytes. -/
def readChunks : Nat → List Nat → List (List Nat)
  | 0, _ => []
  | _, [] => []
  | fuel + 1, b :: l => ((b :: l).take bufSize) :: readChunks fuel ((b :: l).drop bufSize)

/-- The `Entry` a disk-walk regular file presents: its stat size equals
its byte count and reading it succeeds. -/
def diskEntry (p : Name) (d : List Nat) : Entry :=
  ⟨p, d.length, readChunks d.length d, false⟩

/-- Total node count of a walk stack. -/
def stackWeight (stack : List (Name × FsEntry)) : Nat :=
  (stack.map (fun pe => fsWeight pe.2)).sum

/-- The loop body of `nadekoArchiveNextHeader` on a disk source: pop the
next node; a regular file (`!archive_read_disk_can_descend`) is
returned, a directory is descended into (its children are pushed) and
the loop continues.  `fuel` bounds the iterations; `stackWeight` fuel
always suffices. -/
def diskNextFuel : Nat → List (Name × FsEntry) → Option ((Name × List Nat) × List (Name × FsEntry))
  | _, [] => none
  | 0, _ :: _ => none
  | _ + 1, (p, .file _ d) :: rest => some ((p, d), rest)
  | fuel + 1, (p, .dir _ cs) :: rest =>
    diskNextFuel fuel (cs.map (fun c => (joinPath p c.fsName, c)) ++ rest)

/-- `nadekoArchiveNextHeader`: on an archive (`archive_format ≠ 0`)
return the next header verbatim; on a disk walk skip directory
entries, descending into each, until a regular file or the end of the
walk is reached. -/
def nadekoNextHeader : Source → HeaderResult
  | .archive [] => .eof
  | .archive (some e :: rest) => .ok e (.archive rest)
  | .archive (none :: rest) => .err (.archive rest)
  | .disk stack =>
    match diskNextFuel (stackWeight stack) stack with
    | none => .eof
    | some ((p, d), rest) => .ok (diskEntry p d) (.disk rest)

/-- The `nadeko_vtab` table handle.  `reads` and `opens` are ghost
instrumentation counters: `reads` counts the calls into the source
codec (`nadekoNextHeader`), `opens` counts how often the source was
opened; neither influences any other field. -/
structure VTab where
  pArchive : Option Source
  isFilesystem : Bool
  iKnown : Int
  iBegun : Bool
  zFilename : Name
  zTempname : Name
  store : Store
  reads : Nat
  opens : Nat

/-- The `nadeko_cursor`: current position, the row its `pSelect`
statement currently holds (what `nadekoColumn` would return), and the
`iEof` flag. -/
structure Cursor where
  iRowid : Int
  curRow : Option (Name × List Nat)
  iEof : Bool
deriving Repr, DecidableEq

/-- Result of one cursor method call. -/
structure StepResult where
  vtab : VTab
  cursor : Cursor
  ok : Bool

/-- The pathname adjustment in `nadekoNext` for filesystem sources:
`pathname += strlen(zFilename); if (pathname[0] == '/') pathname++;`. -/
def nadekoStripRoot (root path : Name) : Name :=
  match path.drop root.length with
  | [] => []
  | c :: t => if c = slashChar then t else c :: t

/-- The filename bound by `nadekoNext` for an entry: stripped of the
root prefix when the source is a filesystem, verbatim otherwise. -/
def yieldName (isFs : Bool) (root : Name) (e : Entry) : Name :=
  if isFs then nadekoStripRoot root e.path else e.path

/-- The ingestion block of `nadekoNext` (everything guarded by
`pCur->pParent->pArchive != 0 && pCur->iRowid > pCur->pParent->iKnown`):
pull one header — on success insert a zero-blob row keyed `iKnown + 1`,
stream the entry into the blob at the cursor's new rowid `i` and bump
`iKnown` only if the copy succeeded; on end-of-stream free the source;
on a header error report failure. -/
def nadekoIngest (v : VTab) (i : Int) : VTab × Bool :=
  match v.pArchive with
  | some src =>
    if i > v.iKnown then
      match nadekoNextHeader src with
      | .ok e src2 =>
        let nm := yieldName v.isFilesystem v.zFilename e
        let s1 := storeInsertOrReplace v.store (v.iKnown + 1) nm (List.replicate e.size 0)
        let fr := nadekoFillBlobFromArchive s1 i e
        if fr.2 then
          ({ v with pArchive := some src2, store := fr.1, iKnown := v.iKnown + 1,
                    reads := v.reads + 1 }, true)
        else
          ({ v with pArchive := some src2, store := fr.1, reads := v.reads + 1 }, false)
      | .eof =>
        ({ v with pArchive := none, reads := v.reads + 1 }, true)
      | .err src2 =>
        ({ v with pArchive := some src2, reads := v.reads + 1 }, false)
    else (v, true)
  | none => (v, true)

/-- `nadekoNext`: advance the rowid, run the ingestion block, then
re-run the `pSelect` lookup of the new position, setting `iEof` when it
finds no row. -/
def nadekoNext (v : VTab) (c : Cursor) : StepResult :=
  let step := nadekoIngest v (c.iRowid + 1)
  let r := storeGet step.1.store (c.iRowid + 1)
  { vtab := step.1,
    cursor := { iRowid := c.iRowid + 1,
                curRow := r.map (fun row => (row.filename, row.contents)),
                iEof := if r.isNone then true else c.iEof },
    ok := step.2 }

/-- `nadekoFilter`: reset the position and the `iEof` flag, then advance
once, so the cursor points at row 1 or is exhausted immediately. -/
def nadekoFilter (v : VTab) (c : Cursor) : StepResult :=
  nadekoNext v { c with iRowid := 0, iEof := false }

/-- `nadekoEof`. -/
def nadekoEof (c : Cursor) : Bool := c.iEof

/-- The fresh cursor produced by `nadekoOpen` (`memset` to zero). -/
def freshCursor : Cursor := ⟨0, none, false⟩

/-- Result of driving a scan to completion. -/
structure ScanResult where
  vtab : VTab
  cursor : Cursor
  outs : List (Int × Option (Name × List Nat))
  ok : Bool

/-- The host's scan loop after `xFilter`: while `xEof` is false, record
the current rowid and row, then call `xNext`; a failing `xNext` aborts
the scan.  `fuel` bounds the number of iterations. -/
def collectLoop : Nat → VTab → Cursor → ScanResult
  | 0, v, c => ⟨v, c, [], true⟩
  | fuel + 1, v, c =>
    if c.iEof then ⟨v, c, [], true⟩
    else
      let s := nadekoNext v c
      if s.ok then
        let r := collectLoop fuel s.vtab s.cursor
        ⟨r.vtab, r.cursor, (c.iRowid, c.curRow) :: r.outs, r.ok⟩
      else ⟨s.vtab, s.cursor, [(c.iRowid, c.curRow)], false⟩

/-- A full scan: open a cursor, rewind it (`nadekoFilter`), then drive
the loop to exhaustion. -/
def scanToEnd (fuel : Nat) (v : VTab) : ScanResult :=
  let s := nadekoFilter v freshCursor
  if s.ok then collectLoop fuel s.vtab s.cursor
  else ⟨s.vtab, s.cursor, [], false⟩

/-- `nadekoBegin` (full iteration, `src/unnamed/part_001`): reject
filesystem sources with a read-only error, otherwise set `iBegun`. -/
def nadekoBegin (v : VTab) : VTab × Bool :=
  if v.isFilesystem then (v, false)
  else ({ v with iBegun := true }, true)

/-- The host filesystem visible to `rename`/`remove`: a finite map from
path to file bytes. -/
abbrev Fs := List (Name × List Nat)

/-- Contents of the file at a path, if any. -/
def fsGet (fs : Fs) (p : Name) : Option (List Nat) :=
  (fs.find? (fun q => q.1 == p)).map Prod.snd

/-- `remove(path)`: the file at the path is gone afterwards. -/
def fsRemove (fs : Fs) (p : Name) : Fs :=
  fs.filter (fun q => q.1 != p)

/-- `rename(src, dst)`: atomically moves the file at `src` over `dst`;
fails (nonzero) when `src` does not exist, leaving everything in
place. -/
def fsRename (fs : Fs) (src dst : Name) : Fs × Bool :=
  match fsGet fs src with
  | none => (fs, false)
  | some contents => ((dst, contents) :: fsRemove (fsRemove fs src) dst, true)

/-- `nadekoCommit`: a no-op unless `iBegun`; otherwise clear the flag
and rename the temporary file over the declared filename, deleting the
temporary file and reporting an error when the rename fails. -/
def nadekoCommit (v : VTab) (fs : Fs) : VTab × Fs × Bool :=
  if v.iBegun = false then (v, fs, true)
  else
    let v2 := { v with iBegun := false }
    let r := fsRename fs v.zTempname v.zFilename
    if r.2 then (v2, r.1, true)
    else (v2, fsRemove r.1 v.zTempname, false)

/-- `nadekoRollback`: a no-op unless `iBegun`; otherwise clear the flag
and delete the temporary file. -/
def nadekoRollback (v : VTab) (fs : Fs) : VTab × Fs × Bool :=
  if v.iBegun = false then (v, fs, true)
  else ({ v with iBegun := false }, fsRemove fs v.zTempname, true)

/-- The `argc == 1` branch of `nadekoUpdate` (a DELETE mutation):
prepare and run `DELETE FROM store WHERE rowid = ?` and return
`SQLITE_OK`. -/
def nadekoUpdateDelete (v : VTab) (rid : Int) : VTab × Bool :=
  ({ v with store := storeDelete v.store rid }, true)

/-- `nadekoUnquote`: `none` models the C null return.  Requires length
at least 2, a single or double quote first, and the first character
equal to the last; returns the text between the quotes. -/
def nadekoUnquote (z : Name) : Option Name :=
  if z.length < 2 then none
  else if ¬ (z.head? = some dquoteChar ∨ z.head? = some squoteChar) then none
  else if z.head? ≠ z.getLast? then none
  else some ((z.drop 1).take (z.length - 2))

/-- Outcome of the argument handling in `nadekoConnect`: the unquoted
filename on success, the `sqlite3_mprintf`-formatted message placed in
`*pzErr` on failure (the vtab object is freed, retaining no state). -/
def nadekoConnectArgs (argv : List Name) : Except Name Name :=
  if argv.length ≠ 4 then
    .error (String.data "wrong number of arguments to nadeko()")
  else
    match argv.get? 3 with
    | none => .error (String.data "wrong number of arguments to nadeko()")
    | some a =>
      match nadekoUnquote a with
      | none => .error (String.data "first argument to nadeko() not a string")
      | some fn => .ok fn

/-- `sqlite3UpperToLower` on one byte: ASCII upper-case letters map to
lower case, all other bytes map to themselves. -/
def upperToLower (b : Nat) : Nat :=
  if 65 ≤ b ∧ b ≤ 90 then b + 32 else b

/-- `sqlite3_stricmp`: difference of the case-folded bytes at the first
position where they differ, `0` when the strings are case-insensitively
equal (a shorter string is treated as ending in a NUL byte, code 0). -/
def sqliteStricmp : List Nat → List Nat → Int
  | [], [] => 0
  | [], y :: _ => 0 - (upperToLower y : Int)
  | x :: _, [] => (upperToLower x : Int)
  | x :: xs, y :: ys =>
    if upperToLower x = upperToLower y then sqliteStricmp xs ys
    else (upperToLower x : Int) - (upperToLower y : Int)

/-- `nadekoShadowName`: `sqlite3_stricmp(pName, "store")`. -/
def nadekoShadowName (nm : List Nat) : Int :=
  sqliteStricmp nm (bytesOf "store")

/-- A source entry a scan can ingest cleanly: no mid-copy I/O error and
a declared size equal to its actual byte count. -/
def EntryValid (e : Entry) : Prop :=
  e.ioerr = false ∧ e.chunks.flatten.length = e.size

instance (e : Entry) : Decidable (EntryValid e) := by
  unfold EntryValid
  infer_instance

/-- Every row of the store is keyed at or below the ingestion counter. -/
def StoreBound (s : Store) (k : Int) : Prop :=
  ∀ r ∈ s, r.rowid ≤ k

/-- The entries a source will hand to successive `nadekoNextHeader`
calls, in codec enumeration order. -/
inductive SourceYields : Source → List Entry → Prop
  | nil {src : Source} : nadekoNextHeader src = .eof → SourceYields src []
  | cons {src src2 : Source} {e : Entry} {es : List Entry} :
      nadekoNextHeader src = .ok e src2 → SourceYields src2 es →
      SourceYields src (e :: es)

/-- The rows a clean scan must report: entry `k` of the source appears
with rowid `base + k + 1`, its (possibly root-stripped) name, and its
full byte content. -/
def expectedOuts (isFs : Bool) (root : Name) : Int → List Entry → List (Int × Option (Name × List Nat))
  | _, [] => []
  | k, e :: es =>
    (k + 1, some (yieldName isFs root e, e.chunks.flatten)) :: expectedOuts isFs root (k + 1) es

/-- The rows a directory scan must report: file `k` of the walk appears
with rowid `base + k + 1`, its path stripped of the root prefix and one
leading separator, and its exact bytes. -/
def expectedDiskOuts (root : Name) : Int → List (Name × List Nat) → List (Int × Option (Name × List Nat))
  | _, [] => []
  | k, (p, d) :: fs =>
    (k + 1, some (nadekoStripRoot root p, d)) :: expectedDiskOuts root (k + 1) fs

/-- A table handle exactly as `nadekoConnect` leaves it for an archive
file: source opened once, nothing ingested, empty store. -/
def freshArchiveVTab (fn tmp : Name) (items : List (Option Entry)) : VTab :=
  { pArchive := some (.archive items), isFilesystem := false, iKnown := 0,
    iBegun := false, zFilename := fn, zTempname := tmp, store := [],
    reads := 0, opens := 1 }

/-- A table handle exactly as `nadekoConnect` leaves it for a directory
source: the disk walk opened once at the root, nothing ingested. -/
def freshDiskVTab (root tmp : Name) (tree : FsEntry) : VTab :=
  { pArchive := some (.disk [(root, tree)]), isFilesystem := true, iKnown := 0,
    iBegun := false, zFilename := root, zTempname := tmp, store := [],
    reads := 0, opens := 1 }

/-! ### Lemmas about the blob copy loop -/

/-- Streaming a chunk list into a blob that is large enough writes
exactly the concatenation of the chunks at the running offset, and
succeeds exactly when the final read does not report an I/O error. -/
theorem fillLoop_writes (chunks : List (List Nat)) :
    ∀ (payload : List Nat) (off : Nat) (ioerr : Bool),
      off + chunks.flatten.length ≤ payload.length →
      fillLoop payload off chunks ioerr =
        (payload.take off ++ chunks.flatten ++ payload.drop (off + chunks.flatten.length),
         !ioerr) := by
  induction chunks with
  | nil =>
    intro payload off ioerr _
    simp [fillLoop]
  | cons chunk rest ih =>
    intro payload off ioerr h
    simp only [List.flatten_cons, List.length_append] at h
    have h1 : off + chunk.length ≤ payload.length := by omega
    have hbw : blobWrite payload chunk off =
        some (payload.take off ++ chunk ++ payload.drop (off + chunk.length)) := by
      simp [blobWrite, h1]
    have hoff : (payload.take off).length = off := by
      simp [List.length_take]
      omega
    have hfix : (payload.take off ++ chunk).length = off + chunk.length := by
      simp [hoff]
    have hlen : (payload.take off ++ chunk ++ payload.drop (off + chunk.length)).length
        = payload.length := by
      simp [List.length_take, List.length_drop]
      omega
    have h2 : off + chunk.length + rest.flatten.length
        ≤ (payload.take off ++ chunk ++ payload.drop (off + chunk.length)).length := by
      rw [hlen]; omega
    have hrec := ih (payload.take off ++ chunk ++ payload.drop (off + chunk.length))
      (off + chunk.length) ioerr h2
    have htk : (payload.take off ++ chunk ++ payload.drop (off + chunk.length)).take
        (off + chunk.length) = payload.take off ++ chunk := List.take_left' hfix
    have hd0 : (payload.take off ++ chunk ++ payload.drop (off + chunk.length)).drop
        (off + chunk.length) = payload.drop (off + chunk.length) := List.drop_left' hfix
    have hdp : (payload.take off ++ chunk ++ payload.drop (off + chunk.length)).drop
        (off + chunk.length + rest.flatten.length)
        = payload.drop (off + chunk.length + rest.flatten.length) := by
      calc (payload.take off ++ chunk ++ payload.drop (off + chunk.length)).drop
              (off + chunk.length + rest.flatten.length)
          = ((payload.take off ++ chunk ++ payload.drop (off + chunk.length)).drop
              (off + chunk.length)).drop rest.flatten.length := by
            rw [List.drop_drop, Nat.add_comm]
        _ = (payload.drop (off + chunk.length)).drop rest.flatten.length := by rw [hd0]
        _ = payload.drop (off + chunk.length + rest.flatten.length) := by
            rw [List.drop_drop, Nat.add_comm]
    rw [fillLoop, hbw]
    simp only [hrec, htk, hdp]
    simp [List.append_assoc, Nat.add_assoc]

/-! ### Lemmas about the row store -/

/-- After an insert-or-replace, looking the key up finds the new row. -/
theorem storeGet_insertOrReplace_self (s : Store) (rid : Int) (nm : Name) (c : List Nat) :
    storeGet (storeInsertOrReplace s rid nm c) rid = some ⟨rid, nm, c⟩ := by
  simp [storeGet, storeInsertOrReplace]

/-- After inserting a row and then overwriting its blob, looking the key
up finds the row with the new contents. -/
theorem storeGet_fill_insert (s : Store) (rid : Int) (nm : Name) (c0 c1 : List Nat) :
    storeGet (storeSetContents (storeInsertOrReplace s rid nm c0) rid c1) rid
      = some ⟨rid, nm, c1⟩ := by
  simp [storeGet, storeSetContents, storeInsertOrReplace]

/-- A bounded store has no row above the bound. -/
theorem storeGet_none_of_bound {s : Store} {k i : Int} (hb : StoreBound s k) (hi : k < i) :
    storeGet s i = none := by
  apply List.find?_eq_none.mpr
  intro r hr
  have := hb r hr
  simp only [beq_iff_eq]
  omega

/-- A bound weakens. -/
theorem StoreBound.mono {s : Store} {k k2 : Int} (hb : StoreBound s k) (h : k ≤ k2) :
    StoreBound s k2 := fun r hr => le_trans (hb r hr) h

/-- Insert-or-replace at a key within the new bound preserves it. -/
theorem StoreBound.insertOrReplace {s : Store} {k k2 : Int} {rid : Int} {nm : Name}
    {c : List Nat} (hb : StoreBound s k) (hk : k ≤ k2) (hr : rid ≤ k2) :
    StoreBound (storeInsertOrReplace s rid nm c) k2 := by
  intro r hrm
  simp only [storeInsertOrReplace, List.mem_cons, List.mem_filter] at hrm
  rcases hrm with rfl | ⟨hmem, _⟩
  · exact hr
  · exact le_trans (hb r hmem) hk

/-- Overwriting a blob does not change any rowid, so bounds persist. -/
theorem StoreBound.setContents {s : Store} {k rid : Int} {c : List Nat}
    (hb : StoreBound s k) : StoreBound (storeSetContents s rid c) k := by
  intro r hrm
  simp only [storeSetContents, List.mem_map] at hrm
  obtain ⟨a, ha, rfl⟩ := hrm
  by_cases hcond : (a.rowid == rid) = true
  · simpa [hcond] using hb a ha
  · simpa [hcond] using hb a ha

/-- The ingestion write of a new row keyed `k + 1` leaves every row at
or below `k` exactly as it was. -/
theorem store_low_frame {s : Store} {k : Int} (nm : Name) (c payload : List Nat)
    (hb : StoreBound s k) :
    ∀ r ∈ storeSetContents (storeInsertOrReplace s (k + 1) nm c) (k + 1) payload,
      r.rowid ≤ k → r ∈ s := by
  intro r hrm hle
  simp only [storeSetContents, List.mem_map] at hrm
  obtain ⟨a, ha, hfa⟩ := hrm
  simp only [storeInsertOrReplace, List.mem_cons, List.mem_filter] at ha
  rcases ha with ha | ⟨hmem, _⟩
  · exfalso
    subst ha
    simp only [beq_self_eq_true, if_pos] at hfa
    rw [← hfa] at hle
    simp at hle
  · have hale : a.rowid ≤ k := hb a hmem
    have hne : (a.rowid == k + 1) = false := by
      simp only [beq_eq_false_iff_ne, ne_eq]
      omega
    rw [hne] at hfa
    simp only [Bool.false_eq_true, if_false] at hfa
    rwa [← hfa]

/-! ### One-step lemmas for `nadekoNext` -/

/-- No source interaction happens at an already materialized position:
the table handle is untouched and the call succeeds. -/
theorem nadekoIngest_cached {v : VTab} {i : Int} (h : i ≤ v.iKnown) :
    nadekoIngest v i = (v, true) := by
  unfold nadekoIngest
  cases hsrc : v.pArchive with
  | none => rfl
  | some src =>
    dsimp only
    rw [if_neg (by omega : ¬ i > v.iKnown)]

/-- A released source (`pArchive == 0`) is never consulted again. -/
theorem nadekoIngest_noSource {v : VTab} {i : Int} (h : v.pArchive = none) :
    nadekoIngest v i = (v, true) := by
  unfold nadekoIngest
  rw [h]

/-- The store after `nadekoNext` ingests entry `e` at the in-sync
position: the row keyed `iKnown + 1` holds the entry's (possibly
stripped) name and its streamed bytes. -/
def ingestedStore (v : VTab) (e : Entry) : Store :=
  storeSetContents
    (storeInsertOrReplace v.store (v.iKnown + 1)
      (yieldName v.isFilesystem v.zFilename e) (List.replicate e.size 0))
    (v.iKnown + 1) e.chunks.flatten

/-- Ingesting one clean entry at the in-sync position: the row keyed
`iKnown + 1` is inserted and fully filled, and `iKnown` advances. -/
theorem nadekoIngest_ok {v : VTab} {src src2 : Source} {e : Entry}
    (hsrc : v.pArchive = some src)
    (hhd : nadekoNextHeader src = .ok e src2)
    (hio : e.ioerr = false)
    (hlen : e.chunks.flatten.length = e.size) :
    nadekoIngest v (v.iKnown + 1) =
      ({ v with
          pArchive := some src2
          store := ingestedStore v e
          iKnown := v.iKnown + 1
          reads := v.reads + 1 }, true) := by
  unfold ingestedStore
  have hfill : nadekoFillBlobFromArchive
      (storeInsertOrReplace v.store (v.iKnown + 1)
        (yieldName v.isFilesystem v.zFilename e) (List.replicate e.size 0))
      (v.iKnown + 1) e =
      (storeSetContents
        (storeInsertOrReplace v.store (v.iKnown + 1)
          (yieldName v.isFilesystem v.zFilename e) (List.replicate e.size 0))
        (v.iKnown + 1) e.chunks.flatten, true) := by
    unfold nadekoFillBlobFromArchive
    rw [storeGet_insertOrReplace_self]
    dsimp only
    rw [hio]
    rw [fillLoop_writes e.chunks (List.replicate e.size 0) 0 false (by simp [hlen])]
    simp [hlen, List.drop_replicate]
  unfold nadekoIngest
  rw [hsrc]
  dsimp only
  rw [if_pos (by omega : v.iKnown + 1 > v.iKnown), hhd]
  dsimp only
  simp [hfill]

/-- Ingesting an entry whose copy hits a mid-stream I/O error: the
partial row is written, but `iKnown` does not advance and the call
fails. -/
theorem nadekoIngest_ioerr {v : VTab} {src src2 : Source} {e : Entry}
    (hsrc : v.pArchive = some src)
    (hhd : nadekoNextHeader src = .ok e src2)
    (hio : e.ioerr = true)
    (hlen : e.chunks.flatten.length = e.size) :
    nadekoIngest v (v.iKnown + 1) =
      ({ v with
          pArchive := some src2
          store := ingestedStore v e
          reads := v.reads + 1 }, false) := by
  unfold ingestedStore
  have hfill : nadekoFillBlobFromArchive
      (storeInsertOrReplace v.store (v.iKnown + 1)
        (yieldName v.isFilesystem v.zFilename e) (List.replicate e.size 0))
      (v.iKnown + 1) e =
      (storeSetContents
        (storeInsertOrReplace v.store (v.iKnown + 1)
          (yieldName v.isFilesystem v.zFilename e) (List.replicate e.size 0))
        (v.iKnown + 1) e.chunks.flatten, false) := by
    unfold nadekoFillBlobFromArchive
    rw [storeGet_insertOrReplace_self]
    dsimp only
    rw [hio]
    rw [fillLoop_writes e.chunks (List.replicate e.size 0) 0 true (by simp [hlen])]
    simp [hlen, List.drop_replicate]
  unfold nadekoIngest
  rw [hsrc]
  dsimp only
  rw [if_pos (by omega : v.iKnown + 1 > v.iKnown), hhd]
  dsimp only
  simp [hfill]

/-- Exhausting the source: the handle is released, nothing else moves. -/
theorem nadekoIngest_eof {v : VTab} {src : Source} {i : Int}
    (hsrc : v.pArchive = some src)
    (hhd : nadekoNextHeader src = .eof)
    (hi : v.iKnown < i) :
    nadekoIngest v i = ({ v with pArchive := none, reads := v.reads + 1 }, true) := by
  unfold nadekoIngest
  rw [hsrc]
  dsimp only
  rw [if_pos (by omega : i > v.iKnown), hhd]

/-- `nadekoNext` on a clean entry at the in-sync position: the cursor
lands on the freshly materialized row. -/
theorem nadekoNext_ok {v : VTab} {c : Cursor} {src src2 : Source} {e : Entry}
    (hsrc : v.pArchive = some src)
    (hhd : nadekoNextHeader src = .ok e src2)
    (hio : e.ioerr = false)
    (hlen : e.chunks.flatten.length = e.size)
    (hpos : c.iRowid = v.iKnown) :
    nadekoNext v c =
      { vtab := { v with
          pArchive := some src2
          store := ingestedStore v e
          iKnown := v.iKnown + 1
          reads := v.reads + 1 }
        cursor := { iRowid := v.iKnown + 1
                    curRow := some (yieldName v.isFilesystem v.zFilename e, e.chunks.flatten)
                    iEof := c.iEof }
        ok := true } := by
  unfold nadekoNext
  rw [hpos, nadekoIngest_ok hsrc hhd hio hlen]
  simp only [ingestedStore, storeGet_fill_insert]
  rfl

/-- `nadekoNext` at the position right past a store that is exhausted
together with the source: the source handle is released and the cursor
reports end of stream. -/
theorem nadekoNext_eof {v : VTab} {c : Cursor} {src : Source}
    (hsrc : v.pArchive = some src)
    (hhd : nadekoNextHeader src = .eof)
    (hpos : c.iRowid = v.iKnown)
    (hb : StoreBound v.store v.iKnown) :
    nadekoNext v c =
      { vtab := { v with pArchive := none, reads := v.reads + 1 }
        cursor := { iRowid := v.iKnown + 1, curRow := none, iEof := true }
        ok := true } := by
  unfold nadekoNext
  rw [hpos, nadekoIngest_eof hsrc hhd (by omega)]
  simp only [storeGet_none_of_bound hb (by omega : v.iKnown < v.iKnown + 1)]
  rfl

/-- Advancing to a target at or below `iKnown` leaves the table handle
— source, counters, store — completely unchanged and succeeds. -/
theorem nadekoNext_cached {v : VTab} {c : Cursor} (h : c.iRowid + 1 ≤ v.iKnown) :
    (nadekoNext v c).vtab = v ∧ (nadekoNext v c).ok = true := by
  unfold nadekoNext
  rw [nadekoIngest_cached h]
  exact ⟨rfl, rfl⟩

/-- After the source is released, advancing never touches the handle. -/
theorem nadekoNext_noSource {v : VTab} {c : Cursor} (h : v.pArchive = none) :
    (nadekoNext v c).vtab = v ∧ (nadekoNext v c).ok = true := by
  unfold nadekoNext
  rw [nadekoIngest_noSource h]
  exact ⟨rfl, rfl⟩

/-! ### The scan loop -/

/-- The scan loop stops immediately at an exhausted cursor. -/
theorem collectLoop_eofStop {v : VTab} {c : Cursor} (fuel : Nat) (h : c.iEof = true) :
    collectLoop fuel v c = ⟨v, c, [], true⟩ := by
  cases fuel with
  | zero => rfl
  | succ f => simp [collectLoop, h]

/-- Unrolling one iteration of the scan loop on a successful advance. -/
theorem collectLoop_step {v : VTab} {c : Cursor} (f : Nat) (heof : c.iEof = false)
    {s : StepResult} (hs : nadekoNext v c = s) (hok : s.ok = true) :
    collectLoop (f + 1) v c =
      ⟨(collectLoop f s.vtab s.cursor).vtab, (collectLoop f s.vtab s.cursor).cursor,
       (c.iRowid, c.curRow) :: (collectLoop f s.vtab s.cursor).outs,
       (collectLoop f s.vtab s.cursor).ok⟩ := by
  simp only [collectLoop, heof, Bool.false_eq_true, if_false, hs, hok, if_true]

/-- Unrolling one iteration of the scan loop on a failing advance: the
scan aborts at once. -/
theorem collectLoop_stepFail {v : VTab} {c : Cursor} (f : Nat) (heof : c.iEof = false)
    {s : StepResult} (hs : nadekoNext v c = s) (hok : s.ok = false) :
    collectLoop (f + 1) v c = ⟨s.vtab, s.cursor, [(c.iRowid, c.curRow)], false⟩ := by
  simp only [collectLoop, heof, Bool.false_eq_true, if_false, hs, hok]

/-- `nadekoFilter` on a fresh cursor is one advance from position 0. -/
theorem nadekoFilter_fresh (v : VTab) :
    nadekoFilter v freshCursor = nadekoNext v ⟨0, none, false⟩ := rfl

/-- Unrolling `scanToEnd` when the rewind succeeds. -/
theorem scanToEnd_step {v : VTab} (fuel : Nat) {s : StepResult}
    (hs : nadekoNext v ⟨0, none, false⟩ = s) (hok : s.ok = true) :
    scanToEnd fuel v = collectLoop fuel s.vtab s.cursor := by
  unfold scanToEnd
  rw [nadekoFilter_fresh, hs, if_pos hok]

/-- An archive stream hands out exactly its header list. -/
theorem archiveYields (es : List Entry) :
    SourceYields (.archive (es.map some)) es := by
  induction es with
  | nil => exact .nil rfl
  | cons e es ih => exact .cons rfl ih

/-- The main loop invariant: starting from a cursor freshly positioned
at row `iKnown` (the row it carries recorded first), driving the loop
over a source that will yield the clean entries `es` reports those
entries in order at rowids `iKnown + 1, iKnown + 2, …`, ends with the
source released, `iKnown` grown by the number of entries, and exactly
`es.length + 1` additional codec calls. -/
theorem collectLoop_spec (es : List Entry) :
    ∀ (fuel : Nat) (v : VTab) (c : Cursor) (src : Source),
      v.pArchive = some src →
      SourceYields src es →
      (∀ e ∈ es, EntryValid e) →
      c.iRowid = v.iKnown →
      c.iEof = false →
      StoreBound v.store v.iKnown →
      es.length + 1 ≤ fuel →
      (collectLoop fuel v c).outs
          = (c.iRowid, c.curRow) :: expectedOuts v.isFilesystem v.zFilename v.iKnown es ∧
      (collectLoop fuel v c).ok = true ∧
      (collectLoop fuel v c).vtab.iKnown = v.iKnown + es.length ∧
      (collectLoop fuel v c).vtab.pArchive = none ∧
      (collectLoop fuel v c).vtab.reads = v.reads + es.length + 1 ∧
      (collectLoop fuel v c).vtab.opens = v.opens ∧
      (collectLoop fuel v c).vtab.isFilesystem = v.isFilesystem ∧
      (collectLoop fuel v c).vtab.zFilename = v.zFilename ∧
      (collectLoop fuel v c).vtab.iBegun = v.iBegun ∧
      (collectLoop fuel v c).cursor.iEof = true := by
  induction es with
  | nil =>
    intro fuel v c src hsrc hy hval hpos heof hb hfuel
    cases hy with
    | nil hhd =>
      obtain ⟨f, rfl⟩ : ∃ f, fuel = f + 1 := ⟨fuel - 1, by omega⟩
      have hnext := nadekoNext_eof hsrc hhd hpos hb
      simp only [collectLoop, heof, Bool.false_eq_true, if_false, hnext]
      rw [collectLoop_eofStop f rfl]
      simp [expectedOuts]
  | cons e es ih =>
    intro fuel v c src hsrc hy hval hpos heof hb hfuel
    cases hy with
    | cons hhd hy2 =>
      rename_i src2
      obtain ⟨f, rfl⟩ : ∃ f, fuel = f + 1 := ⟨fuel - 1, by omega⟩
      obtain ⟨hio, hlen⟩ := hval e (List.mem_cons_self e es)
      have hnext := nadekoNext_ok hsrc hhd hio hlen hpos
      have hb2 : StoreBound (ingestedStore v e) (v.iKnown + 1) :=
        (hb.insertOrReplace (by omega) (by omega)).setContents
      have hrec := ih f
        { v with pArchive := some src2, store := ingestedStore v e,
                 iKnown := v.iKnown + 1, reads := v.reads + 1 }
        { iRowid := v.iKnown + 1,
          curRow := some (yieldName v.isFilesystem v.zFilename e, e.chunks.flatten),
          iEof := c.iEof }
        src2 rfl hy2 (fun x hx => hval x (List.mem_cons_of_mem e hx))
        rfl heof hb2 (by simpa using hfuel)
      rw [collectLoop_step f heof hnext rfl]
      dsimp only at hrec ⊢
      obtain ⟨h1, h2, h3, h4, h5, h6, h7, h8, h9, h10⟩ := hrec
      refine ⟨?_, h2, ?_, h4, ?_, h6, h7, h8, h9, h10⟩
      · rw [h1]
        simp [expectedOuts, hpos]
      · rw [h3]
        simp only [List.length_cons]
        push_cast
        omega
      · rw [h5]
        simp only [List.length_cons]
        omega

/-- A full scan of a freshly connected table over a source yielding the
clean entries `es` reports exactly those entries at rowids `1 … N`,
succeeds, ends with `iKnown = N` and the source handle released, having
made `N + 1` codec calls and no further source opens. -/
theorem scanToEnd_spec (es : List Entry) (v : VTab) (src : Source)
    (hsrc : v.pArchive = some src)
    (hy : SourceYields src es)
    (hval : ∀ e ∈ es, EntryValid e)
    (hk : v.iKnown = 0)
    (hb : StoreBound v.store 0)
    (fuel : Nat) (hfuel : es.length + 1 ≤ fuel) :
    (scanToEnd fuel v).outs = expectedOuts v.isFilesystem v.zFilename 0 es ∧
    (scanToEnd fuel v).ok = true ∧
    (scanToEnd fuel v).vtab.iKnown = es.length ∧
    (scanToEnd fuel v).vtab.pArchive = none ∧
    (scanToEnd fuel v).vtab.reads = v.reads + es.length + 1 ∧
    (scanToEnd fuel v).vtab.opens = v.opens := by
  rw [← hk] at hb
  cases hy with
  | nil hhd =>
    have hnext := nadekoNext_eof (c := ⟨0, none, false⟩) hsrc hhd (by simp [hk]) hb
    rw [scanToEnd_step fuel hnext rfl]
    rw [collectLoop_eofStop fuel rfl]
    simp [expectedOuts, hk]
  | cons hhd hy2 =>
    rename_i src2 e es
    obtain ⟨hio, hlen⟩ := hval e (List.mem_cons_self e _)
    have hnext := nadekoNext_ok (c := ⟨0, none, false⟩) hsrc hhd hio hlen (by simp [hk])
    have hb2 : StoreBound (ingestedStore v e) (v.iKnown + 1) :=
      (hb.insertOrReplace (by omega) (by omega)).setContents
    have hrec := collectLoop_spec es fuel
      { v with pArchive := some src2, store := ingestedStore v e,
               iKnown := v.iKnown + 1, reads := v.reads + 1 }
      { iRowid := v.iKnown + 1,
        curRow := some (yieldName v.isFilesystem v.zFilename e, e.chunks.flatten),
        iEof := false }
      src2 rfl hy2
      (fun x hx => hval x (List.mem_cons_of_mem e hx)) rfl rfl hb2
      (by simp at hfuel ⊢; omega)
    rw [scanToEnd_step fuel hnext rfl]
    dsimp only at hrec ⊢
    obtain ⟨h1, h2, h3, h4, h5, h6, _⟩ := hrec
    refine ⟨?_, h2, ?_, h4, ?_, h6⟩
    · rw [h1]
      simp [expectedOuts, hk]
    · rw [h3, hk]
      simp only [List.length_cons]
      push_cast
      omega
    · rw [h5]
      simp only [List.length_cons]
      omega

/-! ### The disk walk -/

/-- The regular files still pending below a walk stack, in walk order. -/
def stackFiles : List (Name × FsEntry) → List (Name × List Nat)
  | [] => []
  | (p, e) :: rest => fsFiles p e ++ stackFiles rest

/-- Every tree has at least one node. -/
theorem fsWeight_pos (e : FsEntry) : 1 ≤ fsWeight e := by
  cases e with
  | file n d => simp [fsWeight]
  | dir n cs => rw [fsWeight]; omega

theorem stackWeight_cons (p : Name) (e : FsEntry) (rest : List (Name × FsEntry)) :
    stackWeight ((p, e) :: rest) = fsWeight e + stackWeight rest := by
  simp [stackWeight]

theorem stackWeight_append (a b : List (Name × FsEntry)) :
    stackWeight (a ++ b) = stackWeight a + stackWeight b := by
  simp [stackWeight]

/-- Pushing the children of a directory contributes their forest
weight. -/
theorem stackWeight_pushed (p : Name) (cs : List FsEntry) :
    stackWeight (cs.map (fun c => (joinPath p c.fsName, c))) = fsListWeight cs := by
  induction cs with
  | nil => simp [stackWeight, fsListWeight]
  | cons c cs ih =>
    rw [List.map_cons, stackWeight_cons, ih, fsListWeight]

theorem stackFiles_append (a b : List (Name × FsEntry)) :
    stackFiles (a ++ b) = stackFiles a ++ stackFiles b := by
  induction a with
  | nil => simp [stackFiles]
  | cons pe a ih =>
    obtain ⟨p, e⟩ := pe
    simp [stackFiles, ih]

/-- The files below pushed children are the files below the directory. -/
theorem stackFiles_pushed (p : Name) (cs : List FsEntry) :
    stackFiles (cs.map (fun c => (joinPath p c.fsName, c))) = fsListFiles p cs := by
  induction cs with
  | nil => simp [stackFiles, fsListFiles]
  | cons c cs ih =>
    rw [List.map_cons, stackFiles, ih, fsListFiles]

/-- The directory-skipping loop is exact: with enough fuel it pops the
first pending regular file, or reports end of walk when none remain. -/
theorem diskNextFuel_spec : ∀ (fuel : Nat) (stack : List (Name × FsEntry)),
    stackWeight stack ≤ fuel →
    (diskNextFuel fuel stack = none → stackFiles stack = []) ∧
    (∀ p d rest, diskNextFuel fuel stack = some ((p, d), rest) →
        stackFiles stack = (p, d) :: stackFiles rest) := by
  intro fuel
  induction fuel with
  | zero =>
    intro stack hw
    cases stack with
    | nil =>
      refine ⟨fun _ => rfl, fun p d rest h => ?_⟩
      simp [diskNextFuel] at h
    | cons pe rest =>
      obtain ⟨p, e⟩ := pe
      rw [stackWeight_cons] at hw
      have := fsWeight_pos e
      omega
  | succ f ih =>
    intro stack hw
    cases stack with
    | nil =>
      refine ⟨fun _ => rfl, fun p d rest h => ?_⟩
      simp [diskNextFuel] at h
    | cons pe rest =>
      obtain ⟨p, e⟩ := pe
      cases e with
      | file n d =>
        refine ⟨fun h => ?_, fun p2 d2 rest2 h => ?_⟩
        · simp [diskNextFuel] at h
        · simp only [diskNextFuel, Option.some.injEq, Prod.mk.injEq] at h
          obtain ⟨⟨rfl, rfl⟩, rfl⟩ := h
          simp [stackFiles, fsFiles]
      | dir n cs =>
        have hw2 : stackWeight (cs.map (fun c => (joinPath p c.fsName, c)) ++ rest) ≤ f := by
          rw [stackWeight_append, stackWeight_pushed]
          rw [stackWeight_cons, fsWeight] at hw
          omega
        have hfiles : stackFiles ((p, FsEntry.dir n cs) :: rest)
            = stackFiles (cs.map (fun c => (joinPath p c.fsName, c)) ++ rest) := by
          rw [stackFiles, fsFiles, stackFiles_append, stackFiles_pushed]
        have hstep : diskNextFuel (f + 1) ((p, FsEntry.dir n cs) :: rest)
            = diskNextFuel f (cs.map (fun c => (joinPath p c.fsName, c)) ++ rest) := by
          rw [diskNextFuel]
        obtain ⟨ihn, ihs⟩ := ih _ hw2
        refine ⟨fun h => ?_, fun p2 d2 rest2 h => ?_⟩
        · rw [hstep] at h
          rw [hfiles]
          exact ihn h
        · rw [hstep] at h
          rw [hfiles]
          exact ihs p2 d2 rest2 h

/-- The entries a disk walk presents: one per pending regular file. -/
def stackEntries (stack : List (Name × FsEntry)) : List Entry :=
  (stackFiles stack).map (fun pd => diskEntry pd.1 pd.2)

/-- A disk source hands out exactly the pending regular files, in walk
order, with directory entries skipped. -/
theorem disk_yields_aux : ∀ (n : Nat) (stack : List (Name × FsEntry)),
    (stackFiles stack).length ≤ n →
    SourceYields (.disk stack) (stackEntries stack) := by
  intro n
  induction n with
  | zero =>
    intro stack h
    have hnil : stackFiles stack = [] := List.eq_nil_of_length_eq_zero (by omega)
    rw [show stackEntries stack = [] from by simp [stackEntries, hnil]]
    have hspec := diskNextFuel_spec (stackWeight stack) stack le_rfl
    cases hdf : diskNextFuel (stackWeight stack) stack with
    | none => exact .nil (by simp [nadekoNextHeader, hdf])
    | some pr =>
      obtain ⟨⟨p, d⟩, rest⟩ := pr
      have := hspec.2 p d rest hdf
      rw [hnil] at this
      simp at this
  | succ n ih =>
    intro stack h
    have hspec := diskNextFuel_spec (stackWeight stack) stack le_rfl
    cases hdf : diskNextFuel (stackWeight stack) stack with
    | none =>
      have hnil := hspec.1 hdf
      rw [show stackEntries stack = [] from by simp [stackEntries, hnil]]
      exact .nil (by simp [nadekoNextHeader, hdf])
    | some pr =>
      obtain ⟨⟨p, d⟩, rest⟩ := pr
      have hcons := hspec.2 p d rest hdf
      have hlen : (stackFiles rest).length ≤ n := by
        rw [hcons] at h
        simpa using h
      have hhd : nadekoNextHeader (.disk stack) = .ok (diskEntry p d) (.disk rest) := by
        simp [nadekoNextHeader, hdf]
      rw [show stackEntries stack = diskEntry p d :: stackEntries rest from by
        simp [stackEntries, hcons]]
      exact .cons hhd (ih rest hlen)

/-- A disk source yields its pending regular files. -/
theorem disk_yields (stack : List (Name × FsEntry)) :
    SourceYields (.disk stack) (stackEntries stack) :=
  disk_yields_aux (stackFiles stack).length stack le_rfl

/-- Reading a disk file in `bufSize` chunks reproduces its bytes. -/
theorem readChunks_flatten : ∀ (fuel : Nat) (l : List Nat), l.length ≤ fuel →
    (readChunks fuel l).flatten = l := by
  intro fuel
  induction fuel with
  | zero =>
    intro l h
    have : l = [] := List.eq_nil_of_length_eq_zero (by omega)
    subst this
    rfl
  | succ f ih =>
    intro l h
    cases l with
    | nil => rfl
    | cons b t =>
      rw [readChunks, List.flatten_cons, ih ((b :: t).drop bufSize) ?_,
        List.take_append_drop]
      have hbuf : 1 ≤ bufSize := by norm_num [bufSize]
      simp only [List.length_drop, List.length_cons] at h ⊢
      omega

/-- Every disk-walk entry is clean and exactly sized. -/
theorem diskEntry_valid (p : Name) (d : List Nat) : EntryValid (diskEntry p d) :=
  ⟨rfl, by simp [diskEntry, readChunks_flatten d.length d le_rfl]⟩

/-- On disk entries the generic scan specification collapses to: path
stripped of the root prefix plus one leading separator, exact bytes. -/
theorem expectedOuts_disk (root : Name) : ∀ (k : Int) (files : List (Name × List Nat)),
    expectedOuts true root k (files.map fun pd => diskEntry pd.1 pd.2)
      = expectedDiskOuts root k files := by
  intro k files
  induction files generalizing k with
  | nil => simp [expectedOuts, expectedDiskOuts]
  | cons pd fs ih =>
    obtain ⟨p, d⟩ := pd
    rw [List.map_cons, expectedOuts, expectedDiskOuts, ih]
    simp [yieldName, diskEntry, readChunks_flatten d.length d le_rfl]

/-! ### Remaining helper lemmas -/

/-- `nadekoNext` on an entry whose copy hits a mid-stream I/O error:
the partial row is written, `iKnown` stays put, and the call fails. -/
theorem nadekoNext_ioerr {v : VTab} {c : Cursor} {src src2 : Source} {e : Entry}
    (hsrc : v.pArchive = some src)
    (hhd : nadekoNextHeader src = .ok e src2)
    (hio : e.ioerr = true)
    (hlen : e.chunks.flatten.length = e.size)
    (hpos : c.iRowid = v.iKnown) :
    nadekoNext v c =
      { vtab := { v with
          pArchive := some src2
          store := ingestedStore v e
          reads := v.reads + 1 }
        cursor := { iRowid := v.iKnown + 1
                    curRow := some (yieldName v.isFilesystem v.zFilename e, e.chunks.flatten)
                    iEof := c.iEof }
        ok := false } := by
  unfold nadekoNext
  rw [hpos, nadekoIngest_ioerr hsrc hhd hio hlen]
  simp only [ingestedStore, storeGet_fill_insert]
  rfl

/-- The scan loop never touches the table handle after the source is
released. -/
theorem collectLoop_noSource (fuel : Nat) : ∀ (v : VTab) (c : Cursor),
    v.pArchive = none → (collectLoop fuel v c).vtab = v := by
  induction fuel with
  | zero => intro v c _; rfl
  | succ f ih =>
    intro v c h
    by_cases he : c.iEof = true
    · rw [collectLoop_eofStop _ he]
    · have heof : c.iEof = false := by simpa using he
      have hne := nadekoNext_noSource (v := v) (c := c) h
      rw [collectLoop_step f heof rfl hne.2]
      dsimp only
      rw [hne.1]
      exact ih v _ h

/-- A full re-scan after the source was released leaves the table
handle untouched. -/
theorem scanToEnd_noSource (fuel : Nat) (w : VTab) (h : w.pArchive = none) :
    (scanToEnd fuel w).vtab = w := by
  have hn := nadekoNext_noSource (v := w) (c := ⟨0, none, false⟩) h
  rw [scanToEnd_step fuel rfl hn.2, hn.1]
  exact collectLoop_noSource fuel w _ h

/-- The rowids a clean scan reports count up by one from the base. -/
theorem expectedOuts_fst (isFs : Bool) (root : Name) : ∀ (es : List Entry) (k : Int),
    (expectedOuts isFs root k es).map Prod.fst
      = (List.range es.length).map (fun j : Nat => k + (j : Int) + 1) := by
  intro es
  induction es with
  | nil => intro k; simp [expectedOuts]
  | cons e es ih =>
    intro k
    rw [expectedOuts, List.length_cons, List.range_succ_eq_map]
    simp only [List.map_cons, List.map_map, ih, List.cons.injEq, Nat.cast_zero]
    refine ⟨by ring, ?_⟩
    apply List.map_congr_left
    intro j _
    simp only [Function.comp_apply, Nat.succ_eq_add_one]
    push_cast
    ring

/-- `remove` of one path leaves every other path alone. -/
theorem fsGet_remove_ne {fs : Fs} {p q : Name} (h : p ≠ q) :
    fsGet (fsRemove fs q) p = fsGet fs p := by
  induction fs with
  | nil => rfl
  | cons e fs ih =>
    obtain ⟨nm, c⟩ := e
    by_cases hq : nm = q
    · subst hq
      have h2 : (nm == p) = false := by
        simp only [beq_eq_false_iff_ne, ne_eq]
        exact fun hh => h hh.symm
      simp only [fsRemove, fsGet, List.filter, bne_self_eq_false, List.find?, h2]
      exact ih
    · have h1 : (nm != q) = true := by simpa using hq
      by_cases hp : nm = p
      · subst hp
        simp [fsRemove, fsGet, List.filter, List.find?, h1]
      · have h2 : (nm == p) = false := by simpa using hp
        simp only [fsRemove, fsGet, List.filter, List.find?, h1, h2]
        exact ih

/-! ### `sqlite3_stricmp` -/

/-- Case folding never maps a nonzero byte to NUL. -/
theorem upperToLower_ne_zero {b : Nat} (h : b ≠ 0) : upperToLower b ≠ 0 := by
  unfold upperToLower
  split <;> omega

/-- On NUL-free byte strings, `sqlite3_stricmp` returns 0 exactly when
the case-folded strings coincide. -/
theorem sqliteStricmp_eq_zero_iff : ∀ (x y : List Nat),
    (∀ b ∈ x, b ≠ 0) → (∀ b ∈ y, b ≠ 0) →
    (sqliteStricmp x y = 0 ↔ x.map upperToLower = y.map upperToLower) := by
  intro x
  induction x with
  | nil =>
    intro y _ hy
    cases y with
    | nil => simp [sqliteStricmp]
    | cons b t =>
      have hb := upperToLower_ne_zero (hy b (List.mem_cons_self b t))
      rw [sqliteStricmp]
      simp only [List.map_nil, List.map_cons]
      constructor
      · intro hz
        exfalso
        omega
      · intro hz
        exact absurd hz (by simp)
  | cons a sx ih =>
    intro y hx hy
    cases y with
    | nil =>
      have ha := upperToLower_ne_zero (hx a (List.mem_cons_self a sx))
      rw [sqliteStricmp]
      simp only [List.map_nil, List.map_cons]
      constructor
      · intro hz
        exfalso
        omega
      · intro hz
        exact absurd hz (by simp)
    | cons b t =>
      rw [sqliteStricmp]
      by_cases hab : upperToLower a = upperToLower b
      · rw [if_pos hab]
        have := ih t (fun z hz => hx z (List.mem_cons_of_mem a hz))
          (fun z hz => hy z (List.mem_cons_of_mem b hz))
        simp only [List.map_cons, List.cons.injEq]
        rw [this]
        constructor
        · exact fun hm => ⟨hab, hm⟩
        · exact fun hm => hm.2
      · rw [if_neg hab]
        simp only [List.map_cons, List.cons.injEq]
        constructor
        · intro hz
          exfalso
          omega
        · intro hz
          exact absurd hz.1 hab

/-! ### Concrete fixtures -/

/-- The `./fixtures` directory of the spec scenario: `a.txt` holding
`"hello"` and `sub/b.txt` holding `"world"`. -/
def fixturesTree : FsEntry :=
  .dir (String.data "fixtures")
    [ .file (String.data "a.txt") (bytesOf "hello"),
      .dir (String.data "sub") [ .file (String.data "b.txt") (bytesOf "world") ] ]

/-! ### Claim theorems -/

/-- C1: for every valid archive source (no mid-copy errors, declared
sizes matching the byte counts), scanning a freshly opened table from
row 1 to exhaustion — a rewind followed by repeated advances until eof
— yields rows whose `(name, payload)` pairs exactly match the archive's
entries in the order the codec enumerates them, with rowid values
`1 … N` (the `expectedOuts … 0 es` list is exactly that sequence and
its rowid column is `1 … N`), and after exhaustion `iKnown` equals the
total number of entries while the source handle has been released. -/
theorem c1_full_scan_matches_archive (es : List Entry) (fn tmp : Name)
    (hval : ∀ e ∈ es, EntryValid e) :
    (scanToEnd (es.length + 1) (freshArchiveVTab fn tmp (es.map some))).outs
        = expectedOuts false fn 0 es ∧
    (scanToEnd (es.length + 1) (freshArchiveVTab fn tmp (es.map some))).outs.map Prod.fst
        = (List.range es.length).map (fun j : Nat => (j : Int) + 1) ∧
    (scanToEnd (es.length + 1) (freshArchiveVTab fn tmp (es.map some))).ok = true ∧
    (scanToEnd (es.length + 1) (freshArchiveVTab fn tmp (es.map some))).vtab.iKnown
        = es.length ∧
    (scanToEnd (es.length + 1) (freshArchiveVTab fn tmp (es.map some))).vtab.pArchive
        = none := by
  have h := scanToEnd_spec es (freshArchiveVTab fn tmp (es.map some))
    (.archive (es.map some)) rfl (archiveYields es) hval rfl
    (by intro r hr; simp [freshArchiveVTab] at hr) (es.length + 1) le_rfl
  obtain ⟨h1, h2, h3, h4, _, _⟩ := h
  have h1f : (scanToEnd (es.length + 1) (freshArchiveVTab fn tmp (es.map some))).outs
      = expectedOuts false fn 0 es := h1
  refine ⟨h1f, ?_, h2, h3, h4⟩
  rw [h1f, expectedOuts_fst]
  apply List.map_congr_left
  intro j _
  omega

/-- C3: ingestion is idempotent.  Advancing a cursor to a target at or
below `iKnown` leaves the table handle — and in particular its source
handle and its read/open instrumentation counters — completely
untouched, so the row is served from the row store alone; and once a
full scan has exhausted the source (`pArchive = none`), an entire
re-scan leaves the handle untouched, performing zero further codec
reads and zero further source opens. -/
theorem c3_idempotent_ingestion (v w : VTab) (c : Cursor) (fuel : Nat)
    (h1 : c.iRowid + 1 ≤ v.iKnown) (h2 : w.pArchive = none) :
    (nadekoNext v c).vtab = v ∧ (nadekoNext v c).ok = true ∧
    (scanToEnd fuel w).vtab = w ∧
    (scanToEnd fuel w).vtab.reads = w.reads ∧
    (scanToEnd fuel w).vtab.opens = w.opens := by
  have hstep := nadekoNext_cached h1
  have hscan := scanToEnd_noSource fuel w h2
  exact ⟨hstep.1, hstep.2, hscan, by rw [hscan], by rw [hscan]⟩

/-- C4: `nadekoBegin` on a table handle whose source is a directory
(`isFilesystem` set by `nadekoConnect`) fails with the read-only error
and leaves the handle — `iBegun`, `iKnown`, the row store, everything —
unchanged, performing no file I/O (the function takes no filesystem at
all); on an archive-file handle it succeeds and only sets `iBegun`. -/
theorem c4_begin_readonly_directories (v : VTab) :
    (v.isFilesystem = true → nadekoBegin v = (v, false)) ∧
    (v.isFilesystem = false → nadekoBegin v = ({ v with iBegun := true }, true)) := by
  constructor
  · intro h
    simp [nadekoBegin, h]
  · intro h
    simp [nadekoBegin, h]

/-- Witness for C4 at a concrete directory handle and a concrete
archive handle. -/
theorem c4_begin_readonly_directories_witness :
    ((freshDiskVTab (String.data "./fixtures/") (String.data "/tmp/t") fixturesTree).isFilesystem
        = true ∧
      nadekoBegin (freshDiskVTab (String.data "./fixtures/") (String.data "/tmp/t") fixturesTree)
        = (freshDiskVTab (String.data "./fixtures/") (String.data "/tmp/t") fixturesTree,
           false)) ∧
    ((freshArchiveVTab (String.data "t.tar") (String.data "/tmp/t") []).isFilesystem
        = false ∧
      nadekoBegin (freshArchiveVTab (String.data "t.tar") (String.data "/tmp/t") [])
        = ({ freshArchiveVTab (String.data "t.tar") (String.data "/tmp/t") [] with
              iBegun := true }, true)) :=
  ⟨⟨rfl, (c4_begin_readonly_directories _).1 rfl⟩,
   ⟨rfl, (c4_begin_readonly_directories _).2 rfl⟩⟩

/-- C9: the shadow-name predicate `nadekoShadowName` (which is
`sqlite3_stricmp(pName, "store")`) returns a nonzero value exactly when
its NUL-free input differs case-insensitively from `"store"`, and
returns zero on the exact input `"store"`. -/
theorem c9_shadow_name (nm : List Nat) (h : ∀ b ∈ nm, b ≠ 0) :
    (nadekoShadowName nm ≠ 0 ↔
      nm.map upperToLower ≠ (bytesOf "store").map upperToLower) ∧
    nadekoShadowName (bytesOf "store") = 0 := by
  constructor
  · exact not_congr (sqliteStricmp_eq_zero_iff nm (bytesOf "store") h (by decide))
  · decide

/-- Witness for C9 at the concrete input `"Store"`, which differs from
`"store"` only by case and is therefore mapped to zero as well. -/
theorem c9_shadow_name_witness :
    (∀ b ∈ bytesOf "Store", b ≠ 0) ∧
    ((nadekoShadowName (bytesOf "Store") ≠ 0 ↔
        (bytesOf "Store").map upperToLower ≠ (bytesOf "store").map upperToLower) ∧
      nadekoShadowName (bytesOf "store") = 0) :=
  ⟨by decide, c9_shadow_name (bytesOf "Store") (by decide)⟩

/-- C10: a delete mutation (the `argc == 1` branch of `nadekoUpdate`)
only removes the keyed row from the row store: the result keeps every
other row and nothing else of the table handle changes — in particular
the Source Adapter handle is neither read (`reads` unchanged) nor
closed (`pArchive` unchanged), and `iKnown`, `iBegun` and the declared
and temporary paths are untouched. -/
theorem c10_delete_frame (v : VTab) (rid : Int) :
    nadekoUpdateDelete v rid = ({ v with store := storeDelete v.store rid }, true) ∧
    (nadekoUpdateDelete v rid).1.pArchive = v.pArchive ∧
    (nadekoUpdateDelete v rid).1.reads = v.reads ∧
    (nadekoUpdateDelete v rid).1.opens = v.opens ∧
    (nadekoUpdateDelete v rid).1.iKnown = v.iKnown ∧
    (nadekoUpdateDelete v rid).1.iBegun = v.iBegun ∧
    (nadekoUpdateDelete v rid).1.zFilename = v.zFilename ∧
    (nadekoUpdateDelete v rid).1.zTempname = v.zTempname ∧
    (∀ r ∈ (nadekoUpdateDelete v rid).1.store, r.rowid ≠ rid ∧ r ∈ v.store) ∧
    (∀ r ∈ v.store, r.rowid ≠ rid → r ∈ (nadekoUpdateDelete v rid).1.store) := by
  refine ⟨rfl, rfl, rfl, rfl, rfl, rfl, rfl, rfl, ?_, ?_⟩
  · intro r hr
    simp only [nadekoUpdateDelete, storeDelete, List.mem_filter, bne_iff_ne, ne_eq] at hr
    exact ⟨hr.2, hr.1⟩
  · intro r hr hne
    simp only [nadekoUpdateDelete, storeDelete, List.mem_filter, bne_iff_ne, ne_eq]
    exact ⟨hr, hne⟩

/-- A one-node walk stack pends exactly the files below that node. -/
theorem stackEntries_single (p : Name) (e : FsEntry) :
    stackEntries [(p, e)] = (fsFiles p e).map (fun pd => diskEntry pd.1 pd.2) := by
  simp [stackEntries, stackFiles]

/-- Every entry a disk walk presents is clean. -/
theorem stackEntries_valid (stack : List (Name × FsEntry)) :
    ∀ x ∈ stackEntries stack, EntryValid x := by
  intro x hx
  simp only [stackEntries, List.mem_map] at hx
  obtain ⟨pd, _, rfl⟩ := hx
  exact diskEntry_valid pd.1 pd.2

/-- C2: `iKnown` advances only after an entry's full payload has been
copied without I/O error.  At the in-sync position (and with a declared
size matching the byte count, so that no blob write overflows): the
advance succeeds exactly when the entry has no mid-copy I/O error; on
success `iKnown` is incremented and the row keyed `iKnown + 1` holds
the fully materialized payload; on a mid-copy I/O error `iKnown` is not
advanced, every row at or below `iKnown` is exactly as it was before
the attempt (the partial row is never keyed at or below `iKnown`), and
the failing advance aborts the enclosing scan loop at once. -/
theorem c2_known_count_after_full_copy (v : VTab) (c : Cursor) (src src2 : Source)
    (e : Entry)
    (hsrc : v.pArchive = some src)
    (hhd : nadekoNextHeader src = .ok e src2)
    (hlen : e.chunks.flatten.length = e.size)
    (hpos : c.iRowid = v.iKnown)
    (heof : c.iEof = false)
    (hb : StoreBound v.store v.iKnown) :
    ((nadekoNext v c).ok = !e.ioerr) ∧
    (e.ioerr = false →
      (nadekoNext v c).vtab.iKnown = v.iKnown + 1 ∧
      storeGet (nadekoNext v c).vtab.store (v.iKnown + 1)
        = some ⟨v.iKnown + 1, yieldName v.isFilesystem v.zFilename e,
                e.chunks.flatten⟩) ∧
    (e.ioerr = true →
      (nadekoNext v c).vtab.iKnown = v.iKnown ∧
      (∀ r ∈ (nadekoNext v c).vtab.store, r.rowid ≤ v.iKnown → r ∈ v.store) ∧
      (∀ fuel : Nat, (collectLoop (fuel + 1) v c).ok = false)) := by
  cases hio : e.ioerr with
  | false =>
    have hnext := nadekoNext_ok hsrc hhd hio hlen hpos
    rw [hnext]
    refine ⟨rfl, fun _ => ⟨rfl, ?_⟩, fun htrue => by simp [hio] at htrue⟩
    simp [ingestedStore, storeGet_fill_insert]
  | true =>
    have hnext := nadekoNext_ioerr hsrc hhd hio hlen hpos
    refine ⟨by rw [hnext]; rfl, fun hfalse => by simp [hio] at hfalse,
      fun _ => ⟨?_, ?_, ?_⟩⟩
    · rw [hnext]
    · intro r hr hle
      rw [hnext] at hr
      exact store_low_frame _ _ _ hb r (by simpa [ingestedStore] using hr) hle
    · intro fuel
      rw [collectLoop_stepFail fuel heof hnext rfl]

/-- Concrete inputs for the C2 witness: a one-entry archive whose entry
reports an I/O error after its three bytes. -/
def c2entry : Entry := ⟨String.data "a.txt", 3, [[104, 105, 106]], true⟩

/-- The table handle of the C2 witness. -/
def c2vtab : VTab :=
  freshArchiveVTab (String.data "t.tar") (String.data "/tmp/t") [some c2entry]

/-- Witness for C2 at the concrete erroring entry. -/
theorem c2_known_count_after_full_copy_witness :
    ((nadekoNext c2vtab ⟨0, none, false⟩).ok = !c2entry.ioerr) ∧
    (c2entry.ioerr = false →
      (nadekoNext c2vtab ⟨0, none, false⟩).vtab.iKnown = c2vtab.iKnown + 1 ∧
      storeGet (nadekoNext c2vtab ⟨0, none, false⟩).vtab.store (c2vtab.iKnown + 1)
        = some ⟨c2vtab.iKnown + 1, yieldName c2vtab.isFilesystem c2vtab.zFilename c2entry,
                c2entry.chunks.flatten⟩) ∧
    (c2entry.ioerr = true →
      (nadekoNext c2vtab ⟨0, none, false⟩).vtab.iKnown = c2vtab.iKnown ∧
      (∀ r ∈ (nadekoNext c2vtab ⟨0, none, false⟩).vtab.store,
          r.rowid ≤ c2vtab.iKnown → r ∈ c2vtab.store) ∧
      (∀ fuel : Nat, (collectLoop (fuel + 1) c2vtab ⟨0, none, false⟩).ok = false)) :=
  c2_known_count_after_full_copy c2vtab ⟨0, none, false⟩
    (.archive [some c2entry]) (.archive []) c2entry rfl rfl (by decide) rfl rfl
    (by intro r hr; simp [c2vtab, freshArchiveVTab] at hr)

/-- Concrete entries for the C1 witness. -/
def c1entryA : Entry := ⟨String.data "report.csv", 5, [bytesOf "hello"], false⟩

/-- Second concrete entry for the C1 witness. -/
def c1entryB : Entry := ⟨String.data "sub.txt", 5, [bytesOf "world"], false⟩

/-- Witness for C1 at a concrete two-entry archive. -/
theorem c1_full_scan_matches_archive_witness :
    (∀ e ∈ [c1entryA, c1entryB], EntryValid e) ∧
    ((scanToEnd ([c1entryA, c1entryB].length + 1)
        (freshArchiveVTab (String.data "t.tar") (String.data "/tmp/t")
          ([c1entryA, c1entryB].map some))).outs
      = expectedOuts false (String.data "t.tar") 0 [c1entryA, c1entryB] ∧
    (scanToEnd ([c1entryA, c1entryB].length + 1)
        (freshArchiveVTab (String.data "t.tar") (String.data "/tmp/t")
          ([c1entryA, c1entryB].map some))).outs.map Prod.fst
      = (List.range [c1entryA, c1entryB].length).map (fun j : Nat => (j : Int) + 1) ∧
    (scanToEnd ([c1entryA, c1entryB].length + 1)
        (freshArchiveVTab (String.data "t.tar") (String.data "/tmp/t")
          ([c1entryA, c1entryB].map some))).ok = true ∧
    (scanToEnd ([c1entryA, c1entryB].length + 1)
        (freshArchiveVTab (String.data "t.tar") (String.data "/tmp/t")
          ([c1entryA, c1entryB].map some))).vtab.iKnown = [c1entryA, c1entryB].length ∧
    (scanToEnd ([c1entryA, c1entryB].length + 1)
        (freshArchiveVTab (String.data "t.tar") (String.data "/tmp/t")
          ([c1entryA, c1entryB].map some))).vtab.pArchive = none) :=
  ⟨by decide,
   c1_full_scan_matches_archive [c1entryA, c1entryB]
     (String.data "t.tar") (String.data "/tmp/t") (by decide)⟩

/-- Concrete already-ingested handle for the C3 witness. -/
def c3vtab : VTab :=
  { pArchive := some (.archive []), isFilesystem := false, iKnown := 1,
    iBegun := false, zFilename := String.data "t.tar",
    zTempname := String.data "/tmp/t",
    store := [⟨1, String.data "a.txt", [104]⟩], reads := 1, opens := 1 }

/-- Concrete fully exhausted handle for the C3 witness. -/
def c3exhausted : VTab :=
  { pArchive := none, isFilesystem := false, iKnown := 1,
    iBegun := false, zFilename := String.data "t.tar",
    zTempname := String.data "/tmp/t",
    store := [⟨1, String.data "a.txt", [104]⟩], reads := 2, opens := 1 }

/-- Witness for C3 at concrete handles. -/
theorem c3_idempotent_ingestion_witness :
    (nadekoNext c3vtab ⟨0, none, false⟩).vtab = c3vtab ∧
    (nadekoNext c3vtab ⟨0, none, false⟩).ok = true ∧
    (scanToEnd 3 c3exhausted).vtab = c3exhausted ∧
    (scanToEnd 3 c3exhausted).vtab.reads = c3exhausted.reads ∧
    (scanToEnd 3 c3exhausted).vtab.opens = c3exhausted.opens :=
  c3_idempotent_ingestion c3vtab c3exhausted ⟨0, none, false⟩ 3 (by decide) rfl

/-- C5: `nadekoCommit` is a no-op returning success when `iBegun` is
clear.  When `iBegun` is set it always clears the flag; it renames the
temporary path over the declared filename (modelled as succeeding
exactly when the temporary file exists: the new contents land at the
original filename and the temporary path is gone); and when the rename
fails it deletes the temporary file, reports an error, and the
original archive file is left untouched. -/
theorem c5_commit_rename (v : VTab) (fs : Fs) (hne : v.zTempname ≠ v.zFilename) :
    (v.iBegun = false → nadekoCommit v fs = (v, fs, true)) ∧
    (v.iBegun = true →
      (nadekoCommit v fs).1 = { v with iBegun := false } ∧
      (∀ cts, fsGet fs v.zTempname = some cts →
        nadekoCommit v fs =
          ({ v with iBegun := false },
           (v.zFilename, cts) :: fsRemove (fsRemove fs v.zTempname) v.zFilename,
           true)) ∧
      (fsGet fs v.zTempname = none →
        (nadekoCommit v fs).2.2 = false ∧
        (nadekoCommit v fs).2.1 = fsRemove fs v.zTempname ∧
        fsGet (nadekoCommit v fs).2.1 v.zFilename = fsGet fs v.zFilename)) := by
  constructor
  · intro h
    simp [nadekoCommit, h]
  · intro h
    refine ⟨?_, ?_, ?_⟩
    · simp only [nadekoCommit, h, Bool.true_eq_false, if_false]
      rcases hr : fsRename fs v.zTempname v.zFilename with ⟨fs2, ok⟩
      cases ok <;> simp
    · intro cts hget
      simp only [nadekoCommit, h, Bool.true_eq_false, if_false]
      unfold fsRename
      rw [hget]
      simp
    · intro hget
      have hmain : nadekoCommit v fs
          = ({ v with iBegun := false }, fsRemove fs v.zTempname, false) := by
        simp only [nadekoCommit, h, Bool.true_eq_false, if_false]
        unfold fsRename
        rw [hget]
        simp
      rw [hmain]
      exact ⟨rfl, rfl, fsGet_remove_ne (Ne.symm hne)⟩

/-- Concrete begun handle for the C5 and C6 witnesses. -/
def c5vtab : VTab :=
  { pArchive := none, isFilesystem := false, iKnown := 0, iBegun := true,
    zFilename := String.data "t.tar", zTempname := String.data "/tmp/t",
    store := [], reads := 0, opens := 1 }

/-- Concrete filesystem for the C5 and C6 witnesses: the temporary file
exists, the original archive exists too. -/
def c5fs : Fs := [(String.data "/tmp/t", [1, 2]), (String.data "t.tar", [9])]

/-- Witness for C5: a concrete begun commit whose rename succeeds. -/
theorem c5_commit_rename_witness :
    nadekoCommit c5vtab c5fs
      = ({ c5vtab with iBegun := false },
         (c5vtab.zFilename, [1, 2])
           :: fsRemove (fsRemove c5fs c5vtab.zTempname) c5vtab.zFilename,
         true) :=
  (((c5_commit_rename c5vtab c5fs (by decide)).2 rfl).2.1) [1, 2] (by decide)

/-- C6: `nadekoRollback` is a no-op returning success when `iBegun` is
clear; when `iBegun` is set it clears the flag and deletes the
temporary file, leaving the original archive file unchanged and every
row-store mutation made during the transaction in place (the store
component is untouched). -/
theorem c6_rollback_discards_temp (v : VTab) (fs : Fs)
    (hne : v.zTempname ≠ v.zFilename) :
    (v.iBegun = false → nadekoRollback v fs = (v, fs, true)) ∧
    (v.iBegun = true →
      nadekoRollback v fs
        = ({ v with iBegun := false }, fsRemove fs v.zTempname, true) ∧
      (nadekoRollback v fs).1.store = v.store ∧
      fsGet (nadekoRollback v fs).2.1 v.zFilename = fsGet fs v.zFilename) := by
  constructor
  · intro h
    simp [nadekoRollback, h]
  · intro h
    have hmain : nadekoRollback v fs
        = ({ v with iBegun := false }, fsRemove fs v.zTempname, true) := by
      simp [nadekoRollback, h]
    refine ⟨hmain, by rw [hmain], ?_⟩
    rw [hmain]
    exact fsGet_remove_ne (Ne.symm hne)

/-- Witness for C6: a concrete begun rollback. -/
theorem c6_rollback_discards_temp_witness :
    nadekoRollback c5vtab c5fs
      = ({ c5vtab with iBegun := false }, fsRemove c5fs c5vtab.zTempname, true) ∧
    (nadekoRollback c5vtab c5fs).1.store = c5vtab.store ∧
    fsGet (nadekoRollback c5vtab c5fs).2.1 c5vtab.zFilename
      = fsGet c5fs c5vtab.zFilename :=
  (c6_rollback_discards_temp c5vtab c5fs (by decide)).2 rfl

/-- C7: a scan over a directory source yields exactly the regular files
of the tree, in depth-first walk order (directory entries are skipped:
`fsFiles` contains only regular files), each name being the full entry
path with the root prefix and one leading separator removed, at rowids
`1 … N`; in particular the `./fixtures/` scenario with `a.txt`
(`"hello"`) and `sub/b.txt` (`"world"`) yields exactly those two rows
at rowids 1 and 2. -/
theorem c7_directory_scan (root tmp : Name) (tree : FsEntry) :
    ((scanToEnd ((fsFiles root tree).length + 1) (freshDiskVTab root tmp tree)).outs
        = expectedDiskOuts root 0 (fsFiles root tree) ∧
      (scanToEnd ((fsFiles root tree).length + 1) (freshDiskVTab root tmp tree)).ok
        = true ∧
      (scanToEnd ((fsFiles root tree).length + 1) (freshDiskVTab root tmp tree)).vtab.iKnown
        = (fsFiles root tree).length ∧
      (scanToEnd ((fsFiles root tree).length + 1) (freshDiskVTab root tmp tree)).vtab.pArchive
        = none) ∧
    (scanToEnd 3 (freshDiskVTab (String.data "./fixtures/") (String.data "/tmp/t")
        fixturesTree)).outs
      = [(1, some (String.data "a.txt", bytesOf "hello")),
         (2, some (String.data "sub/b.txt", bytesOf "world"))] := by
  constructor
  · have hlen : (stackEntries [(root, tree)]).length = (fsFiles root tree).length := by
      rw [stackEntries_single, List.length_map]
    have h := scanToEnd_spec (stackEntries [(root, tree)]) (freshDiskVTab root tmp tree)
      (.disk [(root, tree)]) rfl (disk_yields _) (stackEntries_valid _) rfl
      (by intro r hr; simp [freshDiskVTab] at hr)
      ((fsFiles root tree).length + 1) (by omega)
    obtain ⟨h1, h2, h3, h4, _, _⟩ := h
    refine ⟨?_, h2, ?_, h4⟩
    · rw [h1, stackEntries_single]
      exact expectedOuts_disk root 0 (fsFiles root tree)
    · rw [h3, hlen]
  · decide

/-- C8: opening a table requires exactly one extra argument beyond the
three name/schema bindings (four in total), and that argument must be a
string quoted with matching single or double quotes — length at least
2, first character a quote, first equal to last, which is exactly when
`nadekoUnquote` succeeds; with a wrong argument count or an unquotable
string the open fails with the corresponding descriptive error,
retaining no state (only the error message is returned). -/
theorem c8_connect_arguments (argv : List Name) (a z : Name) :
    (argv.length ≠ 4 →
      nadekoConnectArgs argv
        = .error (String.data "wrong number of arguments to nadeko()")) ∧
    (argv.length = 4 → argv.get? 3 = some a → nadekoUnquote a = none →
      nadekoConnectArgs argv
        = .error (String.data "first argument to nadeko() not a string")) ∧
    (∀ fn, argv.length = 4 → argv.get? 3 = some a → nadekoUnquote a = some fn →
      nadekoConnectArgs argv = .ok fn) ∧
    ((nadekoUnquote z).isSome ↔
      (2 ≤ z.length ∧ (z.head? = some dquoteChar ∨ z.head? = some squoteChar) ∧
        z.head? = z.getLast?)) := by
  refine ⟨?_, ?_, ?_, ?_⟩
  · intro h
    simp [nadekoConnectArgs, h]
  · intro h4 hget hunq
    unfold nadekoConnectArgs
    rw [if_neg (by omega), hget]
    dsimp only
    rw [hunq]
  · intro fn h4 hget hunq
    unfold nadekoConnectArgs
    rw [if_neg (by omega), hget]
    dsimp only
    rw [hunq]
  · unfold nadekoUnquote
    by_cases h1 : z.length < 2
    · rw [if_pos h1]
      simp only [Option.isSome_none, Bool.false_eq_true, false_iff]
      rintro ⟨hh, -, -⟩
      omega
    · rw [if_neg h1]
      by_cases h2 : z.head? = some dquoteChar ∨ z.head? = some squoteChar
      · rw [if_neg (not_not_intro h2)]
        by_cases h3 : z.head? = z.getLast?
        · rw [if_neg (not_not_intro h3)]
          simp only [Option.isSome_some, true_iff]
          exact ⟨by omega, h2, h3⟩
        · rw [if_pos h3]
          simp only [Option.isSome_none, Bool.false_eq_true, false_iff]
          rintro ⟨-, -, hh⟩
          exact h3 hh
      · rw [if_pos h2]
        simp only [Option.isSome_none, Bool.false_eq_true, false_iff]
        rintro ⟨-, hq, -⟩
        exact h2 hq

/-- Witness for C8: a wrong argument count, an unquotable argument, a
well-quoted argument, and the unquote characterization at `'x'`. -/
theorem c8_connect_arguments_witness :
    (nadekoConnectArgs [String.data "nadeko", String.data "main", String.data "t"]
        = .error (String.data "wrong number of arguments to nadeko()")) ∧
    (nadekoConnectArgs
        [String.data "nadeko", String.data "main", String.data "t", String.data "oops"]
        = .error (String.data "first argument to nadeko() not a string")) ∧
    (nadekoConnectArgs
        [String.data "nadeko", String.data "main", String.data "t", String.data "'x'"]
        = .ok (String.data "x")) ∧
    ((nadekoUnquote (String.data "'x'")).isSome ↔
      (2 ≤ (String.data "'x'").length ∧
        ((String.data "'x'").head? = some dquoteChar ∨
          (String.data "'x'").head? = some squoteChar) ∧
        (String.data "'x'").head? = (String.data "'x'").getLast?)) :=
  ⟨(c8_connect_arguments [String.data "nadeko", String.data "main", String.data "t"]
      (String.data "") (String.data "")).1 (by decide),
   (c8_connect_arguments
      [String.data "nadeko", String.data "main", String.data "t", String.data "oops"]
      (String.data "oops") (String.data "")).2.1 (by decide) (by decide) (by decide),
   (c8_connect_arguments
      [String.data "nadeko", String.data "main", String.data "t", String.data "'x'"]
      (String.data "'x'") (String.data "")).2.2.1 (String.data "x")
      (by decide) (by decide) (by decide),
   (c8_connect_arguments [] (String.data "") (String.data "'x'")).2.2.2⟩

/-- Witness for C10 at a concrete two-row store, deleting rowid 1. -/
theorem c10_delete_frame_witness :
    nadekoUpdateDelete
        { pArchive := none, isFilesystem := false, iKnown := 2, iBegun := false,
          zFilename := String.data "t.tar", zTempname := String.data "/tmp/t",
          store := [⟨1, String.data "a", [104]⟩, ⟨2, String.data "b", [105]⟩],
          reads := 3, opens := 1 } 1
      = ({ pArchive := none, isFilesystem := false, iKnown := 2, iBegun := false,
           zFilename := String.data "t.tar", zTempname := String.data "/tmp/t",
           store := storeDelete
             [⟨1, String.data "a", [104]⟩, ⟨2, String.data "b", [105]⟩] 1,
           reads := 3, opens := 1 }, true) ∧
    (⟨2, String.data "b", [105]⟩ : Row) ∈
      (nadekoUpdateDelete
        { pArchive := none, isFilesystem := false, iKnown := 2, iBegun := false,
          zFilename := String.data "t.tar", zTempname := String.data "/tmp/t",
          store := [⟨1, String.data "a", [104]⟩, ⟨2, String.data "b", [105]⟩],
          reads := 3, opens := 1 } 1).1.store :=
  ⟨(c10_delete_frame _ 1).1,
   (c10_delete_frame _ 1).2.2.2.2.2.2.2.2.2 ⟨2, String.data "b", [105]⟩
     (by decide) (by decide)⟩

end Nadeko
